import Mathlib

/-!
# Verification of the Netflix EDA pipeline (`src/Netflix_EDA/netflix_eda.py`)

A shallow embedding of the data-cleaning and analysis pipeline of the
`NetflixEDA` class, together with proofs of the behavioural claims made by
the specification.

The pandas `DataFrame` is embedded as a list of records.  Nullable columns
(`country`, `date_added`, `rating`, `duration`, `listed_in`) are `Option`
valued; `NaN`/`NaT` is `none`.  Column-wise pandas operations become
structurally recursive passes over the list of rows.
-/

namespace NetflixEDA

/-! ## String primitives

Python string operations used by the script, re-implemented over `List Char`
so that every definition is structurally recursive and kernel-evaluable:
`str.split(',')`, `str.split()` (whitespace), `str.strip()`, the substring
test `pat in s`, and `int(s)`. -/

/-- `isPref p l` is `true` iff the char list `p` is an initial segment of `l`. -/
def isPref : List Char → List Char → Bool
  | [], _ => true
  | _ :: _, [] => false
  | a :: as, b :: bs => a == b && isPref as bs

/-- Python's substring containment test `p in s`, on char lists. -/
def hasSubList (p : List Char) : List Char → Bool
  | [] => isPref p []
  | c :: t => isPref p (c :: t) || hasSubList p t

/-- Python's `pat in s` on strings (substring containment). -/
def hasSub (pat s : String) : Bool := hasSubList pat.toList s.toList

/-- Split a char list at every char satisfying `p`; keeps empty pieces,
matching Python `str.split(sep)` for a one-char separator. -/
def splitChars (p : Char → Bool) (cur : List Char) : List Char → List (List Char)
  | [] => [cur.reverse]
  | c :: t => if p c then cur.reverse :: splitChars p [] t else splitChars p (c :: cur) t

/-- Python `s.split(',')`. -/
def splitComma (s : String) : List String :=
  (splitChars (fun c => c == ',') [] s.toList).map String.mk

/-- Python `s.split()` — split on whitespace runs, discarding empty tokens. -/
def splitWs (s : String) : List String :=
  ((splitChars (fun c => c.isWhitespace) [] s.toList).filter (fun l => l ≠ [])).map String.mk

/-- Python `s.strip()` — remove leading and trailing whitespace. -/
def pyStrip (s : String) : String :=
  String.mk (((s.toList.dropWhile Char.isWhitespace).reverse.dropWhile Char.isWhitespace).reverse)

/-- Digits-only string to `Nat` (`none` if empty or a non-digit occurs). -/
def digitsToNat : List Char → Option Nat
  | [] => none
  | l =>
    if l.all Char.isDigit then
      some (l.foldl (fun a c => a * 10 + (c.toNat - 48)) 0)
    else none

/-- Python `int(s)` restricted to optionally signed decimal literals
(the general form also strips whitespace, which tokens produced by
`str.split()` never contain, and allows underscore separators, which do not
occur in this data). `none` models the `ValueError` branch. -/
def pyInt : String → Option Int
  | s =>
    match s.toList with
    | '+' :: ds => (digitsToNat ds).map Int.ofNat
    | '-' :: ds => (digitsToNat ds).map (fun n => -(n : Int))
    | ds => (digitsToNat ds).map Int.ofNat

/-! ## Dates

`pd.to_datetime(col, errors='coerce')` parses the dataset's `date_added`
format `"Month D, YYYY"`; every other string coerces to `NaT` (`none`).
Only the success/failure of the parse and the extracted `year`/`month`
matter to the claims. -/

structure Date where
  year : Int
  month : Nat
  day : Nat
deriving DecidableEq

def monthNames : List String :=
  ["January", "February", "March", "April", "May", "June",
   "July", "August", "September", "October", "November", "December"]

def parseMonth (s : String) : Option Nat :=
  (monthNames.findIdx? (fun m => m == s)).map (fun i => i + 1)

/-- `pd.to_datetime(_, errors='coerce')` on one cell: parse
`"Month D, YYYY"`, yielding `none` (`NaT`) on any failure. -/
def parseDate : Option String → Option Date
  | none => none
  | some str =>
    match splitComma (pyStrip str) with
    | [md, y] =>
      match splitWs md, digitsToNat (pyStrip y).toList with
      | [m, d], some yr =>
        match parseMonth m, digitsToNat d.toList with
        | some mo, some day =>
          if 1 ≤ day && day ≤ 31 then some ⟨Int.ofNat yr, mo, day⟩ else none
        | _, _ => none
      | _, _ => none
    | _ => none

/-! ## Data model

`RawRow` is one row of the loaded CSV (`self.df`), restricted to the
columns the pipeline reads or writes; the remaining CSV columns (title,
director, cast, description) are never touched by any stage and are
omitted.  `CleanRow` is one row of `self.cleaned_df` after `clean_data`:
`date_added` is parsed, `year_added` is derived, and `month_added` is the
column that `create_visualizations` later adds (absent — `none` — until
then). -/

structure RawRow where
  show_id : String
  type_ : String
  country : Option String
  date_added : Option String
  release_year : Int
  rating : Option String
  duration : Option String
  listed_in : Option String
deriving DecidableEq

structure CleanRow where
  show_id : String
  type_ : String
  country : Option String
  date_added : Option Date
  release_year : Int
  rating : Option String
  duration : Option String
  listed_in : Option String
  year_added : Option Int
  month_added : Option Nat
deriving DecidableEq

/-! ## `clean_data` (lines 86-134) -/

/-- `col.fillna(v)` on one cell. -/
def fillna (v : String) : Option String → Option String
  | none => some v
  | some s => some s

/-- One row after the per-column fills of `clean_data`:
`country`/`rating`/`duration` nulls become `"Unknown"`, `date_added`
becomes the supplied (parsed or forward-filled) date. -/
def fillRow (r : RawRow) (d : Option Date) : CleanRow :=
  { show_id := r.show_id
    type_ := r.type_
    country := fillna "Unknown" r.country
    date_added := d
    release_year := r.release_year
    rating := fillna "Unknown" r.rating
    duration := fillna "Unknown" r.duration
    listed_in := r.listed_in
    year_added := none
    month_added := none }

/-- `pd.to_datetime(col, errors='coerce')` followed by
`col.fillna(method='ffill')`, fused into one pass: each row's date is its
own parse when it succeeds, otherwise the carried value `last` (the most
recent prior parse, or `none` if there is none yet). -/
def fillRows (last : Option Date) : List RawRow → List CleanRow
  | [] => []
  | r :: t =>
    let d := match parseDate r.date_added with
             | some x => some x
             | none => last
    fillRow r d :: fillRows d t

/-- The forward-fill carry after consuming a list of rows: the last
successful parse, or the initial carry if none succeeded. -/
def ffState (last : Option Date) : List RawRow → Option Date
  | [] => last
  | r :: t =>
    ffState (match parseDate r.date_added with
             | some x => some x
             | none => last) t

/-- `drop_duplicates(subset=['show_id'], keep='first')`: keep each row
whose `show_id` has not been seen before. -/
def dedupByShowId (seen : List String) : List CleanRow → List CleanRow
  | [] => []
  | r :: t =>
    if r.show_id ∈ seen then dedupByShowId seen t
    else r :: dedupByShowId (r.show_id :: seen) t

/-- `cleaned_df['year_added'] = cleaned_df['date_added'].dt.year`
(`NaT.year` is `NaN`). -/
def addYear (r : CleanRow) : CleanRow :=
  { r with year_added := r.date_added.map Date.year }

/-- `NetflixEDA.clean_data`: copy the raw table, parse + forward-fill
`date_added`, fill `country`/`rating`/`duration` nulls with `"Unknown"`,
drop duplicate `show_id` rows keeping the first, derive `year_added`. -/
def clean_data (raw : List RawRow) : List CleanRow :=
  (dedupByShowId [] (fillRows none raw)).map addYear

/-- First-occurrence deduplication of a list of keys (the key order produced
by `drop_duplicates(keep='first')`, by a `Counter`'s insertion order, and by
`value_counts`' category set). -/
def firstDedup [DecidableEq α] (seen : List α) : List α → List α
  | [] => []
  | a :: t => if a ∈ seen then firstDedup seen t else a :: firstDedup (a :: seen) t

/-- Number of entries that duplicate an earlier entry ("duplicate rows
beyond the first occurrence"). -/
def dupCount [DecidableEq α] (seen : List α) : List α → Nat
  | [] => 0
  | a :: t => if a ∈ seen then 1 + dupCount seen t else dupCount (a :: seen) t

/-- `drop_duplicates(subset=['show_id'], keep='first')` expressed directly on
raw rows (used to name "the first occurrence of each `show_id`" in claims). -/
def dedupRawByShowId (seen : List String) : List RawRow → List RawRow
  | [] => []
  | r :: t =>
    if r.show_id ∈ seen then dedupRawByShowId seen t
    else r :: dedupRawByShowId (r.show_id :: seen) t

/-! ## Counting and ordering

`value_counts()` and `Counter.most_common(n)` both produce (category, count)
pairs sorted by descending count; both `pandas`' and CPython's sorts are
stable, so ties keep first-encountered order.  The categories of a
`Counter` appear in dict-insertion order, i.e. first-encountered order. -/

/-- "Count at least as large": the ordering used to sort (category, count)
pairs by descending count. -/
def cntGE (a b : String × Nat) : Prop := b.2 ≤ a.2

instance : DecidableRel cntGE := fun a b => Nat.decLe b.2 a.2

instance : IsTotal (String × Nat) cntGE := ⟨fun a b => Nat.le_total b.2 a.2⟩

instance : IsTrans (String × Nat) cntGE := ⟨fun _ _ _ h h' => Nat.le_trans h' h⟩

/-- Stable sort of (category, count) pairs by descending count. -/
def sortByCountDesc (l : List (String × Nat)) : List (String × Nat) :=
  l.insertionSort cntGE

/-- The (category, count) pairs of a list of values, categories in
first-encountered order. -/
def countsAssoc (l : List String) : List (String × Nat) :=
  (firstDedup [] l).map (fun v => (v, l.count v))

/-- `col.value_counts()`: categories with counts, descending by count. -/
def valueCounts (l : List String) : List (String × Nat) :=
  sortByCountDesc (countsAssoc l)

/-- `Counter(l).most_common(n)`. -/
def most_common (n : Nat) (l : List String) : List (String × Nat) :=
  (sortByCountDesc (countsAssoc l)).take n

/-- `count/total*100` as an exact rational. -/
def pct (c total : Nat) : ℚ := (c : ℚ) * 100 / (total : ℚ)

/-- Rounding to one decimal place for display (`f"{p:.1f}"`; Python format
rounds ties to even, but no claim depends on the tie direction and the
tolerance bound below holds for any nearest-tenth rounding). -/
def roundTo1 (q : ℚ) : ℚ := ((round (10 * q) : ℤ) : ℚ) / 10

/-- Exact percentages of a categorical column, one per category. -/
def pctList (l : List String) : List ℚ :=
  (valueCounts l).map (fun p => pct p.2 l.length)

/-! ## Analyzers (lines 136-294) -/

/-- `analyze_content_types` (lines 136-154): `cleaned_df['type'].value_counts()`
(`type` is never null, so `value_counts`' NaN-dropping is the identity). -/
def analyze_content_types (rows : List CleanRow) : List (String × Nat) :=
  valueCounts (rows.map (fun r => r.type_))

/-- `analyze_release_trends` (lines 156-176):
`cleaned_df['release_year'].value_counts().sort_index()`. -/
def analyze_release_trends (rows : List CleanRow) : List (Int × Nat) :=
  let years := rows.map (fun r => r.release_year)
  ((firstDedup [] years).insertionSort (fun a b => a ≤ b)).map (fun y => (y, years.count y))

/-- One genre/country cell split on commas with each token stripped:
`[x.strip() for x in str(cell).split(',')]`. -/
def splitTrim (s : String) : List String := (splitComma s).map pyStrip

/-- The token list accumulated by `analyze_genres` (lines 189-192):
null `listed_in` cells are skipped by `dropna()`, non-null cells are split
on commas and stripped. -/
def allGenres (rows : List CleanRow) : List String :=
  (rows.filterMap (fun r => r.listed_in)).flatMap splitTrim

/-- `analyze_genres` (lines 178-201): `Counter(all_genres).most_common(10)`. -/
def analyze_genres (rows : List CleanRow) : List (String × Nat) :=
  most_common 10 (allGenres rows)

/-- The token list accumulated by `analyze_countries` (lines 213-217). -/
def allCountries (rows : List CleanRow) : List String :=
  (rows.filterMap (fun r => r.country)).flatMap splitTrim

/-- `analyze_countries` (lines 203-226): `Counter(all_countries).most_common(15)`. -/
def analyze_countries (rows : List CleanRow) : List (String × Nat) :=
  most_common 15 (allCountries rows)

/-- `int(str(duration).split()[0])` guarded by `try`: `none` models both the
`IndexError` on an empty split and the `ValueError` of `int`. -/
def parseLeadInt (s : String) : Option Int :=
  (splitWs s).head?.bind pyInt

/-- Movie durations collected by `analyze_duration` (lines 242-250): rows of
type `Movie`, non-null duration containing `"min"`, leading token an
integer. -/
def movieDurations (rows : List CleanRow) : List Int :=
  ((rows.filter (fun r => r.type_ == "Movie")).filterMap (fun r => r.duration)).filterMap
    (fun s => if hasSub "min" s then parseLeadInt s else none)

/-- TV season counts collected by `analyze_duration` (lines 258-266). -/
def tvDurations (rows : List CleanRow) : List Int :=
  ((rows.filter (fun r => r.type_ == "TV Show")).filterMap (fun r => r.duration)).filterMap
    (fun s => if hasSub "Season" s then parseLeadInt s else none)

/-- `analyze_duration` (lines 228-274): the two parsed duration lists. -/
def analyze_duration (rows : List CleanRow) : List Int × List Int :=
  (movieDurations rows, tvDurations rows)

/-- `np.mean` over the parsed durations, as an exact rational. -/
def meanQ (l : List Int) : ℚ := ((l.sum : Int) : ℚ) / (l.length : ℚ)

/-- `np.median` over the parsed durations (sort; middle element, or the
average of the two middle elements). -/
def medianQ (l : List Int) : ℚ :=
  let s := l.insertionSort (fun a b => a ≤ b)
  if s.length % 2 = 1 then ((s.getD (s.length / 2) 0 : Int) : ℚ)
  else (((s.getD (s.length / 2 - 1) 0 : Int) : ℚ) + ((s.getD (s.length / 2) 0 : Int) : ℚ)) / 2

/-- `analyze_ratings` (lines 276-294): `cleaned_df['rating'].value_counts()`
(`value_counts` counts only non-null cells). -/
def analyze_ratings (rows : List CleanRow) : List (String × Nat) :=
  valueCounts (rows.filterMap (fun r => r.rating))

/-! ## The visualizer's table mutation (lines 433-435)

`create_visualizations` re-derives its aggregates from `cleaned_df` and, for
the heatmap, assigns two columns on `self.cleaned_df` in place:
`month_added` (new) and `year_added` (recomputed).  Only this table update
is modelled; chart rendering has no table effect. -/

def visualizerUpdate (rows : List CleanRow) : List CleanRow :=
  rows.map (fun r =>
    { r with month_added := r.date_added.map Date.month
             year_added := r.date_added.map Date.year })

/-! ## Re-running the Cleaner on its own output

Modelled from the spec: the idempotence claim applies `clean_data`'s
per-column fills, deduplication and `year_added` derivation to an
already-cleaned table.  `pd.to_datetime(_, errors='coerce')` is the
identity on an already-parsed datetime column, so the date step is the
forward fill alone. -/

/-- Forward fill of the already-parsed `date_added` column. -/
def fillRowsC (last : Option Date) : List CleanRow → List CleanRow
  | [] => []
  | r :: t =>
    let d := match r.date_added with
             | some x => some x
             | none => last
    { r with date_added := d } :: fillRowsC d t

/-- The `fillna('Unknown')` fills of `clean_data`, applied pointwise. -/
def fillCols (rows : List CleanRow) : List CleanRow :=
  rows.map (fun r =>
    { r with country := fillna "Unknown" r.country
             rating := fillna "Unknown" r.rating
             duration := fillna "Unknown" r.duration })

/-- The Cleaner's transformation retargeted at an already-cleaned table:
forward-fill dates, fill `country`/`rating`/`duration`, deduplicate by
`show_id`, re-derive `year_added` — in the order of `clean_data`. -/
def cleanAgain (rows : List CleanRow) : List CleanRow :=
  (dedupByShowId [] (fillCols (fillRowsC none rows))).map addYear

/-! ## Loader and driver (lines 46-59, 455-484) -/

/-- Outcome of `pd.read_csv` on the configured path: a parsed table, a
`FileNotFoundError`, or any other exception (parse/decoding failure). -/
inductive LoadResult where
  | ok : List RawRow → LoadResult
  | fileNotFound : LoadResult
  | parseError : String → LoadResult

/-- The pipeline stages sequenced by `run_complete_analysis`. -/
inductive Stage where
  | load | explore | clean
  | contentTypes | releaseTrends | genres | countries | durations | ratings
  | visualize
deriving DecidableEq

/-- `load_data` (lines 46-59): the loaded table on success; on either
exception a console diagnostic and `False` (modelled as `none`). -/
def load_data : LoadResult → Option (List RawRow) × Option String
  | .ok t => (some t, none)
  | .fileNotFound => (none, some "Error: Could not find file")
  | .parseError e => (none, some ("Error loading dataset: " ++ e))

/-- The three image artifacts written by `create_visualizations`. -/
def artifactNames : List String :=
  ["netflix_analysis_overview.png", "netflix_duration_ratings.png", "netflix_heatmap.png"]

/-- Observable outcome of one run: stages executed, artifacts written,
loader diagnostic, and the analyzer results. -/
structure RunOutcome where
  stages : List Stage
  artifacts : List String
  diagnostic : Option String
  contentTypes : Option (List (String × Nat))
  releaseTrends : Option (List (Int × Nat))
  genres : Option (List (String × Nat))
  countries : Option (List (String × Nat))
  durations : Option (List Int × List Int)
  ratings : Option (List (String × Nat))
  finalTable : Option (List CleanRow)

/-- `run_complete_analysis` (lines 455-484): `if not self.load_data():
return` aborts before any later stage; otherwise explore, clean, the six
analyzers and the visualizer all run in order. -/
def run_complete_analysis (input : LoadResult) : RunOutcome :=
  match load_data input with
  | (none, diag) =>
    { stages := [Stage.load], artifacts := [], diagnostic := diag
      contentTypes := none, releaseTrends := none, genres := none
      countries := none, durations := none, ratings := none, finalTable := none }
  | (some raw, _) =>
    let cleaned := clean_data raw
    { stages := [Stage.load, Stage.explore, Stage.clean,
                 Stage.contentTypes, Stage.releaseTrends, Stage.genres,
                 Stage.countries, Stage.durations, Stage.ratings, Stage.visualize]
      artifacts := artifactNames
      diagnostic := none
      contentTypes := some (analyze_content_types cleaned)
      releaseTrends := some (analyze_release_trends cleaned)
      genres := some (analyze_genres cleaned)
      countries := some (analyze_countries cleaned)
      durations := some (analyze_duration cleaned)
      ratings := some (analyze_ratings cleaned)
      finalTable := some (visualizerUpdate cleaned) }

/-! ## Structural lemmas about the cleaning pipeline -/

theorem fillRow_show_id (r : RawRow) (d : Option Date) : (fillRow r d).show_id = r.show_id := rfl

theorem fillRow_date (r : RawRow) (d : Option Date) : (fillRow r d).date_added = d := rfl

theorem map_eq_self {α : Type} {l : List α} {f : α → α} (h : ∀ r ∈ l, f r = r) :
    l.map f = l := by
  induction l with
  | nil => rfl
  | cons a t ih =>
    rw [List.map_cons, h a (List.mem_cons_self a t),
      ih (fun x hx => h x (List.mem_cons_of_mem a hx))]

theorem addYear_show_id (r : CleanRow) : (addYear r).show_id = r.show_id := rfl

theorem fillRows_map_show_id (l : List RawRow) :
    ∀ last, (fillRows last l).map (fun r => r.show_id) = l.map (fun r => r.show_id) := by
  induction l with
  | nil => intro last; rfl
  | cons r t ih => intro last; simp only [fillRows, List.map_cons, fillRow_show_id, ih]

theorem dedup_map_show_id (l : List CleanRow) :
    ∀ seen, (dedupByShowId seen l).map (fun r => r.show_id)
      = firstDedup seen (l.map (fun r => r.show_id)) := by
  induction l with
  | nil => intro seen; rfl
  | cons r t ih =>
    intro seen
    by_cases h : r.show_id ∈ seen <;>
      simp only [dedupByShowId, firstDedup, List.map_cons, h, if_pos, if_neg, ite_true,
        ite_false, ih, List.map]

theorem clean_data_map_show_id (raw : List RawRow) :
    (clean_data raw).map (fun r => r.show_id) = firstDedup [] (raw.map (fun r => r.show_id)) := by
  unfold clean_data
  rw [List.map_map]
  have : ((fun r => r.show_id) ∘ addYear) = fun r : CleanRow => r.show_id := rfl
  rw [this, dedup_map_show_id, fillRows_map_show_id]

theorem firstDedup_length_add_dupCount [DecidableEq α] (l : List α) :
    ∀ seen, (firstDedup seen l).length + dupCount seen l = l.length := by
  induction l with
  | nil => intro seen; rfl
  | cons a t ih =>
    intro seen
    by_cases h : a ∈ seen
    · have := ih seen
      simp only [firstDedup, dupCount, h, ite_true, List.length_cons]
      omega
    · have := ih (a :: seen)
      simp only [firstDedup, dupCount, h, ite_false, List.length_cons]
      omega

theorem dedup_sublist (l : List CleanRow) :
    ∀ seen, (dedupByShowId seen l).Sublist l := by
  induction l with
  | nil => intro seen; exact List.Sublist.refl []
  | cons r t ih =>
    intro seen
    by_cases h : r.show_id ∈ seen
    · simp only [dedupByShowId, h, ite_true]
      exact (ih seen).cons r
    · simp only [dedupByShowId, h, ite_false]
      exact (ih (r.show_id :: seen)).cons₂ r

theorem mem_fillRows {c : CleanRow} (l : List RawRow) :
    ∀ last, c ∈ fillRows last l → ∃ r ∈ l, ∃ d, c = fillRow r d := by
  induction l with
  | nil => intro last h; cases h
  | cons r t ih =>
    intro last h
    simp only [fillRows, List.mem_cons] at h
    rcases h with h | h
    · exact ⟨r, List.mem_cons_self r t, _, h⟩
    · rcases ih _ h with ⟨x, hx, d, hd⟩
      exact ⟨x, List.mem_cons_of_mem r hx, d, hd⟩

theorem mem_clean_data {c : CleanRow} {raw : List RawRow} (h : c ∈ clean_data raw) :
    ∃ r ∈ raw, ∃ d, c = addYear (fillRow r d) := by
  unfold clean_data at h
  rcases List.mem_map.mp h with ⟨c', hc', rfl⟩
  have hc'' : c' ∈ fillRows none raw := (dedup_sublist _ []).mem hc'
  rcases mem_fillRows raw none hc'' with ⟨r, hr, d, rfl⟩
  exact ⟨r, hr, d, rfl⟩

/-- Projection to the columns `clean_data` never mutates. -/
def rawProj (r : RawRow) : String × Int × Option String := (r.type_, r.release_year, r.listed_in)

/-- The same projection on cleaned rows. -/
def cleanProj (r : CleanRow) : String × Int × Option String := (r.type_, r.release_year, r.listed_in)

theorem find_dedup_fill (id : String) (raw : List RawRow) :
    ∀ (last : Option Date) (seen : List String), id ∉ seen →
    (((dedupByShowId seen (fillRows last raw)).map addYear).find?
        (fun r => r.show_id == id)).map cleanProj
      = (raw.find? (fun r => r.show_id == id)).map rawProj := by
  induction raw with
  | nil => intro last seen _; rfl
  | cons r t ih =>
    intro last seen hid
    simp only [fillRows]
    by_cases hmem : r.show_id ∈ seen
    · have hne : (r.show_id == id) = false := by
        refine beq_eq_false_iff_ne.mpr ?_
        intro he; exact hid (he ▸ hmem)
      simp only [dedupByShowId, fillRow_show_id, hmem, ite_true]
      rw [List.find?_cons_of_neg _ (by simp [hne]), ih _ seen hid]
    · simp only [dedupByShowId, fillRow_show_id, hmem, ite_false, List.map_cons]
      by_cases heq : r.show_id = id
      · rw [List.find?_cons_of_pos _ (by simp [addYear_show_id, fillRow_show_id, heq]),
          List.find?_cons_of_pos _ (by simp [heq])]
        rfl
      · rw [List.find?_cons_of_neg _ (by simp [addYear_show_id, fillRow_show_id, heq]),
          List.find?_cons_of_neg _ (by simp [heq])]
        refine ih _ (r.show_id :: seen) ?_
        intro hc
        rcases List.mem_cons.mp hc with hc | hc
        · exact heq hc.symm
        · exact hid hc

/-- C2: the cleaned table keeps, for each `show_id`, exactly the first
occurrence in original row order: the cleaned row count is raw count minus
the duplicate rows beyond first occurrences (hence `≤`), the surviving ids
are the distinct ids in first-occurrence order, and the record found for
any id carries the unmutated columns of the first raw row with that id. -/
theorem claim_c2 (raw : List RawRow) :
    (clean_data raw).length ≤ raw.length
  ∧ (clean_data raw).length = raw.length - dupCount [] (raw.map (fun r => r.show_id))
  ∧ (clean_data raw).map (fun r => r.show_id) = firstDedup [] (raw.map (fun r => r.show_id))
  ∧ ∀ id : String,
      ((clean_data raw).find? (fun r => r.show_id == id)).map cleanProj
        = (raw.find? (fun r => r.show_id == id)).map rawProj := by
  have hlen : (clean_data raw).length
      = (firstDedup [] (raw.map (fun r => r.show_id))).length := by
    rw [← clean_data_map_show_id, List.length_map]
  have hsum := firstDedup_length_add_dupCount (raw.map (fun r => r.show_id)) []
  rw [List.length_map] at hsum
  refine ⟨by omega, by omega, clean_data_map_show_id raw, ?_⟩
  intro id
  exact find_dedup_fill id raw none [] (List.not_mem_nil id)

/-! ## Forward-fill characterization -/

theorem ffState_some_isSome (l : List RawRow) :
    ∀ d : Date, (ffState (some d) l).isSome = true := by
  induction l with
  | nil => intro d; rfl
  | cons r t ih =>
    intro d
    simp only [ffState]
    cases parseDate r.date_added with
    | none => exact ih d
    | some x => exact ih x

theorem ffState_eq_none_iff (l : List RawRow) :
    ffState none l = none ↔ ∀ r ∈ l, parseDate r.date_added = none := by
  induction l with
  | nil => simp [ffState]
  | cons r t ih =>
    simp only [ffState, List.mem_cons]
    cases hp : parseDate r.date_added with
    | none =>
      constructor
      · intro h x hx
        rcases hx with rfl | hx
        · exact hp
        · exact ih.mp h x hx
      · intro h
        exact ih.mpr (fun x hx => h x (Or.inr hx))
    | some d =>
      constructor
      · intro h
        have := ffState_some_isSome t d
        rw [h] at this
        cases this
      · intro h
        exact absurd hp (by simp [h r (Or.inl rfl)])

theorem ffState_some_src (l : List RawRow) :
    ∀ (last : Option Date) (d : Date), ffState last l = some d →
      (last = some d ∧ ∀ x ∈ l, parseDate x.date_added = none)
      ∨ (∃ l₁ r l₂, l = l₁ ++ r :: l₂ ∧ parseDate r.date_added = some d
          ∧ ∀ x ∈ l₂, parseDate x.date_added = none) := by
  induction l with
  | nil =>
    intro last d h
    exact Or.inl ⟨h, by simp⟩
  | cons r t ih =>
    intro last d h
    simp only [ffState] at h
    cases hp : parseDate r.date_added with
    | some x =>
      rw [hp] at h
      rcases ih (some x) d h with ⟨hxd, hall⟩ | ⟨l₁, y, l₂, rfl, hy, hall⟩
      · refine Or.inr ⟨[], r, t, rfl, ?_, hall⟩
        rw [hp, Option.some_inj.mp hxd]
      · exact Or.inr ⟨r :: l₁, y, l₂, rfl, hy, hall⟩
    | none =>
      rw [hp] at h
      rcases ih last d h with ⟨hld, hall⟩ | ⟨l₁, y, l₂, rfl, hy, hall⟩
      · refine Or.inl ⟨hld, ?_⟩
        intro x hx
        rcases List.mem_cons.mp hx with rfl | hx
        · exact hp
        · exact hall x hx
      · exact Or.inr ⟨r :: l₁, y, l₂, rfl, hy, hall⟩

/-- A default row, for positional access into the cleaned table. -/
def defaultClean : CleanRow :=
  { show_id := "", type_ := "", country := none, date_added := none, release_year := 0,
    rating := none, duration := none, listed_in := none, year_added := none, month_added := none }

theorem fillRows_getD_date (l : List RawRow) :
    ∀ (last : Option Date) (i : Nat), i < l.length →
      (((fillRows last l).getD i defaultClean).date_added = ffState last (l.take (i + 1))) := by
  induction l with
  | nil => intro last i h; cases h
  | cons r t ih =>
    intro last i h
    cases i with
    | zero =>
      simp only [fillRows, List.getD_cons_zero, List.take, ffState]
      cases parseDate r.date_added <;> rfl
    | succ n =>
      simp only [fillRows, List.getD_cons_succ, List.take, ffState]
      exact ih _ n (Nat.lt_of_succ_lt_succ h)

theorem fillna_isSome (v : String) (x : Option String) : (fillna v x).isSome = true := by
  cases x <;> rfl

theorem mem_clean_filled {c : CleanRow} {raw : List RawRow} (h : c ∈ clean_data raw) :
    (c.country).isSome = true ∧ (c.rating).isSome = true ∧ (c.duration).isSome = true := by
  rcases mem_clean_data h with ⟨r, _, d, rfl⟩
  exact ⟨fillna_isSome _ _, fillna_isSome _ _, fillna_isSome _ _⟩

/-- A raw row with every nullable column null; its `date_added` is
unparseable, and it is the first row, so forward fill has nothing to
propagate. -/
def rowNullDate : RawRow :=
  { show_id := "s1", type_ := "Movie", country := none, date_added := none,
    release_year := 2020, rating := none, duration := none, listed_in := none }

/-- C1, counterexample: on a table whose single row has a null
`date_added`, cleaning leaves `date_added` null, so it is not true that
after cleaning no configured column contains a missing value. -/
theorem claim_c1_counterexample :
    ((clean_data [rowNullDate]).map (fun r => r.date_added) = [none])
  ∧ ¬ (∀ raw : List RawRow, ∀ r ∈ clean_data raw, (r.date_added).isSome = true) := by
  refine ⟨rfl, ?_⟩
  intro h
  have hall : (clean_data [rowNullDate]).all (fun r => (r.date_added).isSome) = true :=
    List.all_eq_true.mpr (h [rowNullDate])
  exact absurd hall (by decide)

/-- C1 (amended): after cleaning, `country`, `rating` and `duration`
contain no missing value (nulls became `"Unknown"`), and each position of
the date column holds the forward-fill state of the row prefix up to it:
that state is missing exactly when no row so far parses, and otherwise it
is the parsed date of the nearest row at or before the position whose
`date_added` parses.  (The claim's conclusion that *no* configured column
contains a missing value fails for a leading run of unparseable dates.) -/
theorem claim_c1_amended (raw : List RawRow) :
    (∀ r ∈ clean_data raw,
        (r.country).isSome = true ∧ (r.rating).isSome = true ∧ (r.duration).isSome = true)
  ∧ (∀ i, i < raw.length →
      ((fillRows none raw).getD i defaultClean).date_added = ffState none (raw.take (i + 1)))
  ∧ (∀ l : List RawRow, ffState none l = none ↔ ∀ r ∈ l, parseDate r.date_added = none)
  ∧ (∀ (l : List RawRow) (d : Date), ffState none l = some d →
      ∃ l₁ r l₂, l = l₁ ++ r :: l₂ ∧ parseDate r.date_added = some d
        ∧ ∀ x ∈ l₂, parseDate x.date_added = none) := by
  refine ⟨fun r hr => mem_clean_filled hr, fillRows_getD_date raw none, ffState_eq_none_iff, ?_⟩
  intro l d h
  rcases ffState_some_src l none d h with ⟨hc, _⟩ | hs
  · cases hc
  · exact hs

theorem claim_c1_amended_witness :
    ((fillRows none [rowNullDate]).getD 0 defaultClean).date_added
      = ffState none ([rowNullDate].take 1) :=
  (claim_c1_amended [rowNullDate]).2.1 0 (by decide)

/-! ## Decomposition of the pipeline over an append -/

theorem fillRows_append (l₁ : List RawRow) :
    ∀ (l₂ : List RawRow) (last : Option Date),
      fillRows last (l₁ ++ l₂) = fillRows last l₁ ++ fillRows (ffState last l₁) l₂ := by
  induction l₁ with
  | nil => intro l₂ last; rfl
  | cons r t ih =>
    intro l₂ last
    simp only [List.cons_append, fillRows, ffState, List.cons.injEq, true_and]
    exact ih l₂ _

/-- The set of seen ids after deduplicating a list of rows. -/
def seenAfter (seen : List String) : List CleanRow → List String
  | [] => seen
  | r :: t => if r.show_id ∈ seen then seenAfter seen t else seenAfter (r.show_id :: seen) t

theorem dedup_append (l₁ : List CleanRow) :
    ∀ (l₂ : List CleanRow) (seen : List String),
      dedupByShowId seen (l₁ ++ l₂)
        = dedupByShowId seen l₁ ++ dedupByShowId (seenAfter seen l₁) l₂ := by
  induction l₁ with
  | nil => intro l₂ seen; rfl
  | cons r t ih =>
    intro l₂ seen
    by_cases h : r.show_id ∈ seen <;>
      simp only [List.cons_append, dedupByShowId, seenAfter, h, ite_true, ite_false,
        List.cons_append, List.cons.injEq, true_and] <;>
      exact ih l₂ _

theorem fillRows_dates_none {l : List RawRow}
    (h : ∀ r ∈ l, parseDate r.date_added = none) :
    ∀ c ∈ fillRows none l, c.date_added = none := by
  induction l with
  | nil => intro c hc; cases hc
  | cons r t ih =>
    intro c hc
    have hp : parseDate r.date_added = none := h r (List.mem_cons_self r t)
    simp only [fillRows, hp, List.mem_cons] at hc
    rcases hc with rfl | hc
    · rfl
    · exact ih (fun x hx => h x (List.mem_cons_of_mem r hx)) c hc

/-- C5: if the first `k` rows of the raw table all have unparseable
`date_added` values, then every one of their survivors — the leading block
of the cleaned table, one row per distinct id among those `k` rows — still
has a null `date_added` (forward fill never backfills from a later valid
value) and a null derived `year_added`. -/
theorem claim_c5 (raw : List RawRow) (k : Nat)
    (h : ∀ r ∈ raw.take k, parseDate r.date_added = none) :
    ∀ r ∈ (clean_data raw).take
        (firstDedup [] ((raw.take k).map (fun r => r.show_id))).length,
      r.date_added = none ∧ r.year_added = none := by
  have hsplit : raw = raw.take k ++ raw.drop k := (List.take_append_drop k raw).symm
  have hfill : fillRows none raw
      = fillRows none (raw.take k) ++ fillRows (ffState none (raw.take k)) (raw.drop k) := by
    conv_lhs => rw [hsplit]
    exact fillRows_append _ _ _
  have hclean : clean_data raw
      = (dedupByShowId [] (fillRows none (raw.take k))).map addYear
        ++ (dedupByShowId (seenAfter [] (fillRows none (raw.take k)))
              (fillRows (ffState none (raw.take k)) (raw.drop k))).map addYear := by
    unfold clean_data
    rw [hfill, dedup_append, List.map_append]
  have hlen : (firstDedup [] ((raw.take k).map (fun r => r.show_id))).length
      = ((dedupByShowId [] (fillRows none (raw.take k))).map addYear).length := by
    rw [List.length_map, ← fillRows_map_show_id (raw.take k) none, ← dedup_map_show_id,
      List.length_map]
  intro r hr
  rw [hclean, hlen, List.take_left] at hr
  rcases List.mem_map.mp hr with ⟨c, hc, rfl⟩
  have hcF : c ∈ fillRows none (raw.take k) := (dedup_sublist _ []).mem hc
  have hdate : c.date_added = none := fillRows_dates_none h c hcF
  refine ⟨hdate, ?_⟩
  simp only [addYear, hdate, Option.map_none']

theorem claim_c5_witness :
    (∀ r ∈ [rowNullDate].take 1, parseDate r.date_added = none)
  ∧ ∀ r ∈ (clean_data [rowNullDate]).take
        (firstDedup [] (([rowNullDate].take 1).map (fun r => r.show_id))).length,
      r.date_added = none ∧ r.year_added = none :=
  ⟨by decide, claim_c5 [rowNullDate] 1 (by decide)⟩

/-! ## The visualizer's effect on the cleaned table -/

theorem mem_clean_year {c : CleanRow} {raw : List RawRow} (h : c ∈ clean_data raw) :
    c.year_added = (c.date_added).map Date.year := by
  unfold clean_data at h
  rcases List.mem_map.mp h with ⟨c', _, rfl⟩
  rfl

/-- A raw row whose `date_added` parses, so that the heatmap step of
`create_visualizations` gives it a non-null `month_added`. -/
def rowWithDate : RawRow :=
  { show_id := "s2", type_ := "Movie", country := some "United States",
    date_added := some "September 25, 2021", release_year := 2021,
    rating := some "PG-13", duration := some "90 min", listed_in := some "Dramas" }

/-- C6, counterexample: `create_visualizations` mutates the cleaned table —
its heatmap step (lines 433-435) assigns a `month_added` column on
`self.cleaned_df`, so on a one-row table with a parseable date the table
differs before and after the visualizer stage. -/
theorem claim_c6_counterexample :
    visualizerUpdate (clean_data [rowWithDate]) ≠ clean_data [rowWithDate]
  ∧ (visualizerUpdate (clean_data [rowWithDate])).map (fun r => r.month_added) = [some 9]
  ∧ (clean_data [rowWithDate]).map (fun r => r.month_added) = [none] := by
  refine ⟨by decide, by decide, by decide⟩

/-- Projection to every column of the cleaned table except the
`month_added` column the visualizer adds. -/
def stableProj (r : CleanRow) :
    String × String × Option String × Option Date × Int × Option String × Option String
      × Option String × Option Int :=
  (r.show_id, r.type_, r.country, r.date_added, r.release_year, r.rating, r.duration,
    r.listed_in, r.year_added)

/-- C6 (amended): `clean_data` reads only the raw table and builds a new
one, and the analyzers are pure reads, but `create_visualizations` does
mutate the cleaned table: it adds a `month_added` column (the month of each
row's cleaned date).  The row count, every other column, and the
`year_added` values (recomputed to what `clean_data` already stored) are
unchanged. -/
theorem claim_c6_amended (raw : List RawRow) :
    (visualizerUpdate (clean_data raw)).length = (clean_data raw).length
  ∧ (visualizerUpdate (clean_data raw)).map stableProj = (clean_data raw).map stableProj
  ∧ (visualizerUpdate (clean_data raw)).map (fun r => r.month_added)
      = (clean_data raw).map (fun r => (r.date_added).map Date.month) := by
  refine ⟨List.length_map _ _, ?_, ?_⟩
  · unfold visualizerUpdate
    rw [List.map_map]
    refine List.map_congr_left ?_
    intro r hr
    have hy := mem_clean_year hr
    simp only [Function.comp_apply, stableProj, hy]
  · unfold visualizerUpdate
    rw [List.map_map]
    rfl

/-! ## Idempotence of the Cleaner

After `clean_data`, null dates can only form a leading block (once forward
fill has a value it keeps one), all fillable columns are non-null, and ids
are distinct — so a second pass changes nothing. -/

theorem fillRows_dates_isSome (l : List RawRow) :
    ∀ d : Date, ∀ c ∈ fillRows (some d) l, (c.date_added).isSome = true := by
  induction l with
  | nil => intro d c hc; cases hc
  | cons r t ih =>
    intro d c hc
    cases hp : parseDate r.date_added with
    | some x =>
      simp only [fillRows, hp, List.mem_cons] at hc
      rcases hc with rfl | hc
      · rfl
      · exact ih x c hc
    | none =>
      simp only [fillRows, hp, List.mem_cons] at hc
      rcases hc with rfl | hc
      · rfl
      · exact ih d c hc

theorem pairwise_dm_fillRows (l : List RawRow) :
    ∀ last, ((fillRows last l).map (fun r => r.date_added)).Pairwise
      (fun a b => a.isSome = true → b.isSome = true) := by
  induction l with
  | nil => intro last; exact List.Pairwise.nil
  | cons r t ih =>
    intro last
    cases hp : parseDate r.date_added with
    | some x =>
      simp only [fillRows, hp, List.map_cons, fillRow_date]
      refine List.Pairwise.cons ?_ (ih _)
      intro b hb _
      rcases List.mem_map.mp hb with ⟨c, hc, rfl⟩
      exact fillRows_dates_isSome t x c hc
    | none =>
      simp only [fillRows, hp, List.map_cons, fillRow_date]
      refine List.Pairwise.cons ?_ (ih _)
      intro b hb hlast
      rcases List.mem_map.mp hb with ⟨c, hc, rfl⟩
      obtain ⟨y, hy⟩ := Option.isSome_iff_exists.mp hlast
      rw [hy] at hc
      exact fillRows_dates_isSome t y c hc

theorem pairwise_dm_clean (raw : List RawRow) :
    ((clean_data raw).map (fun r => r.date_added)).Pairwise
      (fun a b => a.isSome = true → b.isSome = true) := by
  have h1 := pairwise_dm_fillRows raw none
  have hsub : List.Sublist ((clean_data raw).map (fun r => r.date_added))
      ((fillRows none raw).map (fun r => r.date_added)) := by
    unfold clean_data
    rw [List.map_map]
    have he : ((fun r => r.date_added) ∘ addYear) = fun r : CleanRow => r.date_added := rfl
    rw [he]
    exact (dedup_sublist _ []).map _
  exact h1.sublist hsub

theorem fillRowsC_allSome_id (l : List CleanRow) :
    ∀ last, (∀ r ∈ l, (r.date_added).isSome = true) → fillRowsC last l = l := by
  induction l with
  | nil => intro last _; rfl
  | cons r t ih =>
    intro last h
    obtain ⟨x, hx⟩ := Option.isSome_iff_exists.mp (h r (List.mem_cons_self r t))
    simp only [fillRowsC, hx]
    have h1 : ({ r with date_added := some x } : CleanRow) = r := by rw [← hx]
    rw [h1, ih _ (fun y hy => h y (List.mem_cons_of_mem r hy))]

theorem fillRowsC_id_of_pairwise (l : List CleanRow)
    (h : (l.map (fun r => r.date_added)).Pairwise
        (fun a b => a.isSome = true → b.isSome = true)) :
    fillRowsC none l = l := by
  induction l with
  | nil => rfl
  | cons r t ih =>
    rw [List.map_cons, List.pairwise_cons] at h
    cases hd : r.date_added with
    | none =>
      simp only [fillRowsC, hd]
      have h1 : ({ r with date_added := none } : CleanRow) = r := by rw [← hd]
      rw [h1, ih h.2]
    | some x =>
      simp only [fillRowsC, hd]
      have h1 : ({ r with date_added := some x } : CleanRow) = r := by rw [← hd]
      have hall : ∀ y ∈ t, (y.date_added).isSome = true := by
        intro y hy
        exact h.1 y.date_added (List.mem_map_of_mem _ hy) (by rw [hd]; rfl)
      rw [h1, fillRowsC_allSome_id t (some x) hall]

theorem fillna_of_isSome {x : Option String} (v : String) (h : x.isSome = true) :
    fillna v x = x := by
  cases x
  · cases h
  · rfl

theorem fillCols_id (l : List CleanRow)
    (h : ∀ r ∈ l,
        (r.country).isSome = true ∧ (r.rating).isSome = true ∧ (r.duration).isSome = true) :
    fillCols l = l := by
  unfold fillCols
  refine map_eq_self ?_
  intro r hr
  rw [fillna_of_isSome _ (h r hr).1, fillna_of_isSome _ (h r hr).2.1,
    fillna_of_isSome _ (h r hr).2.2]

theorem firstDedup_spec [DecidableEq α] (l : List α) :
    ∀ seen, (firstDedup seen l).Nodup ∧ ∀ x ∈ firstDedup seen l, x ∉ seen := by
  induction l with
  | nil =>
    intro seen
    refine ⟨List.nodup_nil, ?_⟩
    intro x hx
    simp only [firstDedup] at hx
    cases hx
  | cons a t ih =>
    intro seen
    by_cases h : a ∈ seen
    · simp only [firstDedup, h, ite_true]
      exact ih seen
    · simp only [firstDedup, h, ite_false]
      obtain ⟨hnd, hmem⟩ := ih (a :: seen)
      refine ⟨List.nodup_cons.mpr ⟨?_, hnd⟩, ?_⟩
      · intro ha
        exact (hmem a ha) (List.mem_cons_self a seen)
      · intro x hx
        rcases List.mem_cons.mp hx with rfl | hx
        · exact h
        · intro hxs
          exact (hmem x hx) (List.mem_cons_of_mem a hxs)

theorem dedup_id_of_nodup (l : List CleanRow) :
    ∀ seen, (l.map (fun r => r.show_id)).Nodup → (∀ r ∈ l, r.show_id ∉ seen) →
      dedupByShowId seen l = l := by
  induction l with
  | nil => intro seen _ _; rfl
  | cons r t ih =>
    intro seen hnd hs
    have hrs : r.show_id ∉ seen := hs r (List.mem_cons_self r t)
    simp only [dedupByShowId, hrs, ite_false]
    rw [List.map_cons, List.nodup_cons] at hnd
    refine congrArg (r :: ·) (ih _ hnd.2 ?_)
    intro y hy hmem
    rcases List.mem_cons.mp hmem with he | hys
    · exact hnd.1 (he ▸ List.mem_map_of_mem (fun r => r.show_id) hy)
    · exact hs y (List.mem_cons_of_mem r hy) hys

theorem clean_ids_nodup (raw : List RawRow) :
    ((clean_data raw).map (fun r => r.show_id)).Nodup := by
  rw [clean_data_map_show_id]
  exact (firstDedup_spec _ []).1

theorem addYear_eq_self {r : CleanRow} (h : r.year_added = (r.date_added).map Date.year) :
    addYear r = r := by
  unfold addYear
  rw [← h]

/-- C8: the Cleaner is idempotent — applying its per-column fills,
deduplication, and `year_added` derivation to an already-cleaned table
returns that table unchanged: no row is dropped and no fill changes a
value. -/
theorem claim_c8 (raw : List RawRow) : cleanAgain (clean_data raw) = clean_data raw := by
  have h1 : fillRowsC none (clean_data raw) = clean_data raw :=
    fillRowsC_id_of_pairwise _ (pairwise_dm_clean raw)
  have h2 : fillCols (clean_data raw) = clean_data raw :=
    fillCols_id _ (fun r hr => mem_clean_filled hr)
  have h3 : dedupByShowId [] (clean_data raw) = clean_data raw :=
    dedup_id_of_nodup _ [] (clean_ids_nodup raw) (by simp)
  have h4 : (clean_data raw).map addYear = clean_data raw :=
    map_eq_self (fun r hr => addYear_eq_self (mem_clean_year hr))
  unfold cleanAgain
  rw [h1, h2, h3, h4]

/-! ## Early termination on load failure -/

/-- C9: when the input file is missing or cannot be parsed, the run stops
at the load stage with a console diagnostic: the explore, clean, analyzer
and visualizer stages never execute, no analyzer result is produced, and
no image artifact is written. -/
theorem claim_c9 (input : LoadResult) (h : ∀ t, input ≠ LoadResult.ok t) :
    (run_complete_analysis input).stages = [Stage.load]
  ∧ Stage.explore ∉ (run_complete_analysis input).stages
  ∧ Stage.clean ∉ (run_complete_analysis input).stages
  ∧ Stage.visualize ∉ (run_complete_analysis input).stages
  ∧ (run_complete_analysis input).artifacts = []
  ∧ ((run_complete_analysis input).diagnostic).isSome = true
  ∧ (run_complete_analysis input).contentTypes = none
  ∧ (run_complete_analysis input).releaseTrends = none
  ∧ (run_complete_analysis input).genres = none
  ∧ (run_complete_analysis input).countries = none
  ∧ (run_complete_analysis input).durations = none
  ∧ (run_complete_analysis input).ratings = none
  ∧ (run_complete_analysis input).finalTable = none := by
  cases input with
  | ok t => exact absurd rfl (h t)
  | fileNotFound => simp [run_complete_analysis, load_data]
  | parseError e => simp [run_complete_analysis, load_data]

theorem claim_c9_witness :
    (∀ t, LoadResult.fileNotFound ≠ LoadResult.ok t)
  ∧ ((run_complete_analysis LoadResult.fileNotFound).stages = [Stage.load]
  ∧ Stage.explore ∉ (run_complete_analysis LoadResult.fileNotFound).stages
  ∧ Stage.clean ∉ (run_complete_analysis LoadResult.fileNotFound).stages
  ∧ Stage.visualize ∉ (run_complete_analysis LoadResult.fileNotFound).stages
  ∧ (run_complete_analysis LoadResult.fileNotFound).artifacts = []
  ∧ ((run_complete_analysis LoadResult.fileNotFound).diagnostic).isSome = true
  ∧ (run_complete_analysis LoadResult.fileNotFound).contentTypes = none
  ∧ (run_complete_analysis LoadResult.fileNotFound).releaseTrends = none
  ∧ (run_complete_analysis LoadResult.fileNotFound).genres = none
  ∧ (run_complete_analysis LoadResult.fileNotFound).countries = none
  ∧ (run_complete_analysis LoadResult.fileNotFound).durations = none
  ∧ (run_complete_analysis LoadResult.fileNotFound).ratings = none
  ∧ (run_complete_analysis LoadResult.fileNotFound).finalTable = none) :=
  ⟨fun _ h => LoadResult.noConfusion h,
    claim_c9 LoadResult.fileNotFound (fun _ h => LoadResult.noConfusion h)⟩

/-! ## Duration analysis -/

theorem mem_movieDurations (rows : List CleanRow) (x : Int) :
    x ∈ movieDurations rows ↔
      ∃ r ∈ rows, r.type_ = "Movie" ∧ ∃ s, r.duration = some s ∧
        hasSub "min" s = true ∧ parseLeadInt s = some x := by
  unfold movieDurations
  simp only [List.mem_filterMap, List.mem_filter, beq_iff_eq]
  constructor
  · rintro ⟨s, ⟨r, ⟨hr, hty⟩, hdur⟩, hpx⟩
    by_cases hmin : hasSub "min" s = true
    · rw [if_pos hmin] at hpx
      exact ⟨r, hr, hty, s, hdur, hmin, hpx⟩
    · rw [if_neg hmin] at hpx
      cases hpx
  · rintro ⟨r, hr, hty, s, hdur, hmin, hpx⟩
    exact ⟨s, ⟨r, ⟨hr, hty⟩, hdur⟩, by rw [if_pos hmin]; exact hpx⟩

theorem mem_tvDurations (rows : List CleanRow) (x : Int) :
    x ∈ tvDurations rows ↔
      ∃ r ∈ rows, r.type_ = "TV Show" ∧ ∃ s, r.duration = some s ∧
        hasSub "Season" s = true ∧ parseLeadInt s = some x := by
  unfold tvDurations
  simp only [List.mem_filterMap, List.mem_filter, beq_iff_eq]
  constructor
  · rintro ⟨s, ⟨r, ⟨hr, hty⟩, hdur⟩, hpx⟩
    by_cases hsea : hasSub "Season" s = true
    · rw [if_pos hsea] at hpx
      exact ⟨r, hr, hty, s, hdur, hsea, hpx⟩
    · rw [if_neg hsea] at hpx
      cases hpx
  · rintro ⟨r, hr, hty, s, hdur, hsea, hpx⟩
    exact ⟨s, ⟨r, ⟨hr, hty⟩, hdur⟩, by rw [if_pos hsea]; exact hpx⟩

/-- The round-trip records of the duration scenario:
`[{id:1,type:Movie,duration:"90 min"}, {id:2,type:Movie,duration:"bad"},
{id:3,type:TV Show,duration:"3 Seasons"}]`. -/
def scenarioC3 : List RawRow :=
  [ { show_id := "1", type_ := "Movie", country := none, date_added := none,
      release_year := 2020, rating := none, duration := some "90 min", listed_in := none },
    { show_id := "2", type_ := "Movie", country := none, date_added := none,
      release_year := 2020, rating := none, duration := some "bad", listed_in := none },
    { show_id := "3", type_ := "TV Show", country := none, date_added := none,
      release_year := 2020, rating := none, duration := some "3 Seasons", listed_in := none } ]

/-- C3: the movie-duration set holds exactly the leading integer tokens of
Movie rows whose duration contains `"min"`, the TV set likewise for
TV Show rows whose duration contains `"Season"`; malformed or
substring-mismatched durations are excluded (they satisfy no branch of the
characterization, and parsing is total so nothing raises).  On the
round-trip scenario the sets are `[90]` and `[3]` with means `90.0` and
`3.0` (and median/min/max likewise `90` and `3`). -/
theorem claim_c3 :
    (∀ (rows : List CleanRow) (x : Int),
        x ∈ movieDurations rows ↔
          ∃ r ∈ rows, r.type_ = "Movie" ∧ ∃ s, r.duration = some s ∧
            hasSub "min" s = true ∧ parseLeadInt s = some x)
  ∧ (∀ (rows : List CleanRow) (x : Int),
        x ∈ tvDurations rows ↔
          ∃ r ∈ rows, r.type_ = "TV Show" ∧ ∃ s, r.duration = some s ∧
            hasSub "Season" s = true ∧ parseLeadInt s = some x)
  ∧ analyze_duration (clean_data scenarioC3) = ([90], [3])
  ∧ meanQ (movieDurations (clean_data scenarioC3)) = 90
  ∧ meanQ (tvDurations (clean_data scenarioC3)) = 3
  ∧ medianQ (movieDurations (clean_data scenarioC3)) = 90
  ∧ medianQ (tvDurations (clean_data scenarioC3)) = 3 := by
  refine ⟨mem_movieDurations, mem_tvDurations, by decide, ?_, ?_, ?_, ?_⟩
  · have h : movieDurations (clean_data scenarioC3) = [90] := by decide
    rw [h]
    norm_num [meanQ]
  · have h : tvDurations (clean_data scenarioC3) = [3] := by decide
    rw [h]
    norm_num [meanQ]
  · have h : movieDurations (clean_data scenarioC3) = [90] := by decide
    rw [h]
    norm_num [medianQ, List.insertionSort, List.orderedInsert]
  · have h : tvDurations (clean_data scenarioC3) = [3] := by decide
    rw [h]
    norm_num [medianQ, List.insertionSort, List.orderedInsert]

/-! ## Genre frequency: counting and the stable top-10 -/

theorem count_flatMap [BEq α] (f : β → List α) (l : List β) (a : α) :
    ((l.flatMap f).count a) = (l.map (fun x => (f x).count a)).sum := by
  induction l with
  | nil => rfl
  | cons x t ih => simp [List.flatMap_cons, List.count_append, ih]

theorem countsAssoc_map_fst (l : List String) :
    (countsAssoc l).map Prod.fst = firstDedup [] l := by
  unfold countsAssoc
  rw [List.map_map]
  have h : (Prod.fst ∘ fun v => (v, l.count v)) = fun v : String => v := rfl
  rw [h, List.map_id']

theorem countsAssoc_nodup (l : List String) : (countsAssoc l).Nodup := by
  refine List.Nodup.map ?_ (firstDedup_spec l []).1
  intro a b h
  exact congrArg Prod.fst h

theorem mem_countsAssoc {l : List String} {p : String × Nat} (hp : p ∈ countsAssoc l) :
    p.2 = l.count p.1 := by
  rcases List.mem_map.mp hp with ⟨v, _, rfl⟩
  rfl

theorem sublist_pair_of_mem {a b : α} {l : List α}
    (ha : a ∈ l) (hb : b ∈ l) (hne : a ≠ b) :
    List.Sublist [a, b] l ∨ List.Sublist [b, a] l := by
  induction l with
  | nil => cases ha
  | cons c t ih =>
    rcases List.mem_cons.mp ha with rfl | hat
    · have hbt : b ∈ t := by
        rcases List.mem_cons.mp hb with rfl | h
        · exact absurd rfl hne
        · exact h
      exact Or.inl ((List.singleton_sublist.mpr hbt).cons₂ a)
    · rcases List.mem_cons.mp hb with rfl | hbt
      · exact Or.inr ((List.singleton_sublist.mpr hat).cons₂ b)
      · rcases ih hat hbt with h | h
        · exact Or.inl (h.cons c)
        · exact Or.inr (h.cons c)

theorem sublist_pair_asymm {a b : α} : ∀ {l : List α}, l.Nodup →
    List.Sublist [a, b] l → List.Sublist [b, a] l → a = b := by
  intro l
  induction l with
  | nil => intro _ h1 _; cases h1
  | cons c t ih =>
    intro hnd h1 h2
    have hc : c ∉ t := (List.nodup_cons.mp hnd).1
    cases h1 with
    | cons _ h1' =>
      cases h2 with
      | cons _ h2' => exact ih (List.nodup_cons.mp hnd).2 h1' h2'
      | cons₂ _ h2' => exact absurd (h1'.subset (by simp)) hc
    | cons₂ _ h1' =>
      cases h2 with
      | cons _ h2' => exact absurd (h2'.subset (by simp)) hc
      | cons₂ _ h2' => rfl

theorem sortByCountDesc_stable_pairwise (l : List String) :
    (sortByCountDesc (countsAssoc l)).Pairwise (fun a b =>
      b.2 < a.2 ∨ (a.2 = b.2 ∧ List.Sublist [a.1, b.1] (firstDedup [] l))) := by
  have hperm : (sortByCountDesc (countsAssoc l)).Perm (countsAssoc l) :=
    List.perm_insertionSort cntGE (countsAssoc l)
  have hnodA : (countsAssoc l).Nodup := countsAssoc_nodup l
  have hnodS : (sortByCountDesc (countsAssoc l)).Nodup := hperm.symm.nodup hnodA
  have hsorted : (sortByCountDesc (countsAssoc l)).Pairwise cntGE :=
    List.sorted_insertionSort cntGE (countsAssoc l)
  rw [List.pairwise_iff_forall_sublist]
  intro a b hab
  have hge : cntGE a b := List.pairwise_iff_forall_sublist.mp hsorted hab
  rcases Nat.lt_or_ge b.2 a.2 with hlt | hge2
  · exact Or.inl hlt
  · have heq : a.2 = b.2 := Nat.le_antisymm hge2 hge
    refine Or.inr ⟨heq, ?_⟩
    have hne : a ≠ b := by
      intro he
      subst he
      have hnd2 : ([a, a] : List (String × Nat)).Nodup := List.Nodup.sublist hab hnodS
      simp at hnd2
    have haA : a ∈ countsAssoc l := hperm.subset (hab.subset (by simp))
    have hbA : b ∈ countsAssoc l := hperm.subset (hab.subset (by simp))
    rcases sublist_pair_of_mem haA hbA hne with hAB | hBA
    · have hm := hAB.map Prod.fst
      rw [countsAssoc_map_fst] at hm
      exact hm
    · have hba : cntGE b a := le_of_eq heq
      have hS2 : List.Sublist [b, a] (sortByCountDesc (countsAssoc l)) :=
        List.pair_sublist_insertionSort hba hBA
      exact absurd (sublist_pair_asymm hnodS hab hS2) hne

/-- The genre scenario: one record listing
`"Dramas, International Movies"` and one listing `"Dramas"`. -/
def scenarioC4 : List CleanRow :=
  clean_data
    [ { show_id := "g1", type_ := "Movie", country := none, date_added := none,
        release_year := 2020, rating := none, duration := none,
        listed_in := some "Dramas, International Movies" },
      { show_id := "g2", type_ := "Movie", country := none, date_added := none,
        release_year := 2020, rating := none, duration := none,
        listed_in := some "Dramas" } ]

/-- C4: genre analysis splits each non-null genre list on commas, trims
each token, counts one per token per record (counts are additive over
records), and reports the 10 most frequent genres — descending counts with
ties in first-encountered order (for tied entries, the earlier-reported key
precedes the other in the first-occurrence order of the token stream), and
all ten reported counts dominate every unreported one.  On the scenario the
frequencies are `Dramas ↦ 2, International Movies ↦ 1`. -/
theorem claim_c4 :
    analyze_genres scenarioC4 = [("Dramas", 2), ("International Movies", 1)]
  ∧ (∀ (rows : List CleanRow) (g : String),
      (allGenres rows).count g
        = ((rows.filterMap (fun r => r.listed_in)).map (fun s => (splitTrim s).count g)).sum)
  ∧ (∀ rows : List CleanRow,
      (analyze_genres rows).length = min 10 (firstDedup [] (allGenres rows)).length)
  ∧ (∀ rows : List CleanRow, ∀ p ∈ analyze_genres rows, p.2 = (allGenres rows).count p.1)
  ∧ (∀ rows : List CleanRow,
      (analyze_genres rows).Pairwise (fun a b =>
        b.2 < a.2 ∨ (a.2 = b.2 ∧ List.Sublist [a.1, b.1] (firstDedup [] (allGenres rows)))))
  ∧ (∀ rows : List CleanRow, ∀ p ∈ analyze_genres rows,
      ∀ q ∈ (sortByCountDesc (countsAssoc (allGenres rows))).drop 10, q.2 ≤ p.2) := by
  refine ⟨by decide, ?_, ?_, ?_, ?_, ?_⟩
  · intro rows g
    exact count_flatMap splitTrim _ g
  · intro rows
    unfold analyze_genres most_common sortByCountDesc
    rw [List.length_take, (List.perm_insertionSort cntGE _).length_eq]
    unfold countsAssoc
    rw [List.length_map]
  · intro rows p hp
    have hpS : p ∈ sortByCountDesc (countsAssoc (allGenres rows)) :=
      List.mem_of_mem_take hp
    have hpA : p ∈ countsAssoc (allGenres rows) :=
      (List.perm_insertionSort cntGE _).subset hpS
    exact mem_countsAssoc hpA
  · intro rows
    exact (sortByCountDesc_stable_pairwise (allGenres rows)).sublist (List.take_sublist _ _)
  · intro rows p hp q hq
    exact List.Sorted.rel_of_mem_take_of_mem_drop
      (List.sorted_insertionSort cntGE (countsAssoc (allGenres rows))) hp hq

theorem claim_c4_witness :
    (("Dramas", 2) : String × Nat).2 = (allGenres scenarioC4).count ("Dramas", 2).1 :=
  claim_c4.2.2.2.1 scenarioC4 ("Dramas", 2) (by decide)

/-! ## Percentage distributions -/

theorem countP_split_seen {a : String} {seen : List String} (ha : a ∉ seen) :
    ∀ t : List String,
      t.countP (fun x => decide (x ∉ seen))
        = t.count a + t.countP (fun x => decide (x ∉ (a :: seen))) := by
  intro t
  induction t with
  | nil => rfl
  | cons x r ih =>
    rw [List.countP_cons, List.countP_cons, List.count_cons]
    by_cases hxa : x = a
    · subst hxa
      have h1 : (decide (x ∉ seen)) = true := decide_eq_true ha
      have h2 : (decide (x ∉ (x :: seen))) = false := by
        simp
      rw [h1, h2, beq_self_eq_true]
      simp only [Bool.false_eq_true, if_false, if_true]
      omega
    · have h3 : (x == a) = false := beq_eq_false_iff_ne.mpr hxa
      by_cases hx : x ∈ seen
      · have h1 : (decide (x ∉ seen)) = false := by
          simp [hx]
        have h2 : (decide (x ∉ (a :: seen))) = false := by
          simp [List.mem_cons, hx]
        rw [h1, h2, h3]
        simp only [Bool.false_eq_true, if_false]
        omega
      · have h1 : (decide (x ∉ seen)) = true := decide_eq_true hx
        have h2 : (decide (x ∉ (a :: seen))) = true := by
          simp [List.mem_cons, hxa, hx]
        rw [h1, h2, h3]
        simp only [Bool.false_eq_true, if_false, if_true]
        omega

theorem sum_counts_firstDedup (l : List String) :
    ∀ seen, ((firstDedup seen l).map (fun v => l.count v)).sum
      = l.countP (fun x => decide (x ∉ seen)) := by
  induction l with
  | nil => intro seen; simp [firstDedup]
  | cons a t ih =>
    intro seen
    rw [List.countP_cons]
    by_cases h : a ∈ seen
    · have h0 : (decide (a ∉ seen)) = false := by simp [h]
      rw [h0]
      simp only [firstDedup, h, ite_true, ite_false]
      have hm : ∀ v ∈ firstDedup seen t, (a :: t).count v = t.count v := by
        intro v hv
        have hvs : v ∉ seen := (firstDedup_spec t seen).2 v hv
        have hva : v ≠ a := fun he => hvs (he ▸ h)
        exact List.count_cons_of_ne hva t
      rw [List.map_congr_left hm, ih seen]
      simp
    · have h0 : (decide (a ∉ seen)) = true := decide_eq_true h
      rw [h0]
      simp only [firstDedup, h, ite_false, List.map_cons, List.sum_cons]
      have hm : ∀ v ∈ firstDedup (a :: seen) t, (a :: t).count v = t.count v := by
        intro v hv
        have hvs : v ∉ a :: seen := (firstDedup_spec t (a :: seen)).2 v hv
        have hva : v ≠ a := fun he => hvs (he ▸ List.mem_cons_self a seen)
        exact List.count_cons_of_ne hva t
      rw [List.map_congr_left hm, ih (a :: seen), List.count_cons_self,
        countP_split_seen h t]
      simp
      omega

theorem sum_counts_firstDedup_nil (l : List String) :
    ((firstDedup [] l).map (fun v => l.count v)).sum = l.length := by
  rw [sum_counts_firstDedup l []]
  simp

theorem pctList_sum {l : List String} (h : l ≠ []) : (pctList l).sum = 100 := by
  have hL : (l.length : ℚ) ≠ 0 := by
    have : l.length ≠ 0 := fun h0 => h (List.length_eq_zero.mp h0)
    exact_mod_cast this
  unfold pctList valueCounts sortByCountDesc
  rw [List.Perm.sum_eq ((List.perm_insertionSort cntGE (countsAssoc l)).map _)]
  unfold countsAssoc
  rw [List.map_map]
  have hrw : ((fun p : String × Nat => pct p.2 l.length) ∘ fun v => (v, l.count v))
      = fun v => (l.count v : ℚ) * (100 / (l.length : ℚ)) := by
    funext v
    simp [pct, mul_div_assoc]
  rw [hrw, List.sum_map_mul_right]
  have hcast : ((firstDedup [] l).map (fun v => ((l.count v : ℕ) : ℚ))).sum
      = ((l.length : ℕ) : ℚ) := by
    rw [show (fun v => ((l.count v : ℕ) : ℚ))
        = (fun n : ℕ => (n : ℚ)) ∘ (fun v => l.count v) from rfl,
      ← List.map_map, ← Nat.cast_list_sum, sum_counts_firstDedup_nil]
  rw [hcast]
  field_simp

theorem abs_roundTo1_sub (q : ℚ) : |roundTo1 q - q| ≤ 1 / 10 := by
  unfold roundTo1
  have h := abs_sub_round (10 * q)
  rw [abs_sub_comm] at h
  have he : ((round (10 * q) : ℤ) : ℚ) / 10 - q
      = (((round (10 * q) : ℤ) : ℚ) - 10 * q) / 10 := by
    ring
  rw [he, abs_div]
  have h10 : |(10 : ℚ)| = 10 := by norm_num
  rw [h10]
  linarith

theorem sum_roundTo1_close : ∀ l : List ℚ, |(l.map roundTo1).sum - l.sum| ≤ l.length * (1 / 10) := by
  intro l
  induction l with
  | nil => simp
  | cons q t ih =>
    rw [List.map_cons, List.sum_cons, List.sum_cons, List.length_cons]
    have h1 := abs_roundTo1_sub q
    have habs : |roundTo1 q + (t.map roundTo1).sum - (q + t.sum)|
        ≤ |roundTo1 q - q| + |(t.map roundTo1).sum - t.sum| := by
      have he : roundTo1 q + (t.map roundTo1).sum - (q + t.sum)
          = (roundTo1 q - q) + ((t.map roundTo1).sum - t.sum) := by
        ring
      rw [he]
      exact abs_add _ _
    have hc : ((t.length + 1 : ℕ) : ℚ) = (t.length : ℚ) + 1 := by
      push_cast
      ring
    rw [hc]
    linarith

theorem clean_data_ne_nil {raw : List RawRow} (h : raw ≠ []) : clean_data raw ≠ [] := by
  cases raw with
  | nil => exact absurd rfl h
  | cons r t => simp [clean_data, fillRows, dedupByShowId]

theorem filterMap_length_of_isSome {α β : Type} {l : List α} {f : α → Option β}
    (h : ∀ x ∈ l, (f x).isSome = true) : (l.filterMap f).length = l.length := by
  induction l with
  | nil => rfl
  | cons x t ih =>
    obtain ⟨y, hy⟩ := Option.isSome_iff_exists.mp (h x (List.mem_cons_self x t))
    rw [List.filterMap_cons, hy, List.length_cons,
      ih (fun z hz => h z (List.mem_cons_of_mem x hz))]
    exact (List.length_cons x t).symm

/-- C7: for a non-empty table, the exact content-type and rating
percentages (`count/total*100`, with `value_counts` normalizing by the
non-null count) each sum to exactly 100, and the displayed one-decimal
roundings sum to 100 within ±0.1 per category times the category count. -/
theorem claim_c7 (raw : List RawRow) (h : raw ≠ []) :
    (pctList ((clean_data raw).map (fun r => r.type_))).sum = 100
  ∧ |((pctList ((clean_data raw).map (fun r => r.type_))).map roundTo1).sum - 100|
      ≤ (pctList ((clean_data raw).map (fun r => r.type_))).length * (1 / 10)
  ∧ (pctList ((clean_data raw).filterMap (fun r => r.rating))).sum = 100
  ∧ |((pctList ((clean_data raw).filterMap (fun r => r.rating))).map roundTo1).sum - 100|
      ≤ (pctList ((clean_data raw).filterMap (fun r => r.rating))).length * (1 / 10) := by
  have hne : clean_data raw ≠ [] := clean_data_ne_nil h
  have hty : (clean_data raw).map (fun r => r.type_) ≠ [] := by
    intro h0
    exact hne (List.map_eq_nil_iff.mp h0)
  have hrt : (clean_data raw).filterMap (fun r => r.rating) ≠ [] := by
    intro h0
    have hlen := filterMap_length_of_isSome
      (l := clean_data raw) (f := fun r => r.rating)
      (fun r hr => (mem_clean_filled hr).2.1)
    rw [h0] at hlen
    exact hne (List.length_eq_zero.mp hlen.symm)
  have hsum1 := pctList_sum hty
  have hsum2 := pctList_sum hrt
  have hb1 := sum_roundTo1_close (pctList ((clean_data raw).map (fun r => r.type_)))
  have hb2 := sum_roundTo1_close (pctList ((clean_data raw).filterMap (fun r => r.rating)))
  rw [hsum1] at hb1
  rw [hsum2] at hb2
  exact ⟨hsum1, hb1, hsum2, hb2⟩

theorem claim_c7_witness :
    ([rowNullDate] ≠ ([] : List RawRow))
  ∧ (pctList ((clean_data [rowNullDate]).map (fun r => r.type_))).sum = 100 :=
  ⟨by decide, (claim_c7 [rowNullDate] (by decide)).1⟩

/-! ## Propagation of the `"Unknown"` sentinel into the analyzers -/

theorem dedup_fill_unknown_count (rawF : RawRow → Option String) (cleanF : CleanRow → Option String)
    (hfill : ∀ r d, cleanF (fillRow r d) = fillna "Unknown" (rawF r)) (raw : List RawRow) :
    ∀ (last : Option Date) (seen : List String),
      (dedupRawByShowId seen raw).countP (fun r => (rawF r).isNone)
        ≤ (dedupByShowId seen (fillRows last raw)).countP
            (fun r => cleanF r == some "Unknown") := by
  induction raw with
  | nil => intro last seen; exact Nat.le_refl 0
  | cons r t ih =>
    intro last seen
    cases hp : parseDate r.date_added with
    | some x =>
      by_cases h : r.show_id ∈ seen
      · simp only [dedupRawByShowId, fillRows, hp, dedupByShowId, fillRow_show_id, h, ite_true]
        exact ih _ seen
      · simp only [dedupRawByShowId, fillRows, hp, dedupByShowId, fillRow_show_id, h, ite_false,
          List.countP_cons]
        have hle := ih (some x) (r.show_id :: seen)
        cases hr : rawF r with
        | none =>
          have hb : (cleanF (fillRow r (some x)) == some "Unknown") = true := by
            rw [hfill, hr]
            rfl
          rw [hb]
          simp only [Option.isNone_none]
          omega
        | some s =>
          simp only [Option.isNone_some, Bool.false_eq_true, if_false]
          omega
    | none =>
      by_cases h : r.show_id ∈ seen
      · simp only [dedupRawByShowId, fillRows, hp, dedupByShowId, fillRow_show_id, h, ite_true]
        exact ih _ seen
      · simp only [dedupRawByShowId, fillRows, hp, dedupByShowId, fillRow_show_id, h, ite_false,
          List.countP_cons]
        have hle := ih last (r.show_id :: seen)
        cases hr : rawF r with
        | none =>
          have hb : (cleanF (fillRow r last) == some "Unknown") = true := by
            rw [hfill, hr]
            rfl
          rw [hb]
          simp only [Option.isNone_none]
          omega
        | some s =>
          simp only [Option.isNone_some, Bool.false_eq_true, if_false]
          omega

theorem count_filterMap_eq (f : CleanRow → Option String) (v : String) :
    ∀ rows : List CleanRow,
      ((rows.filterMap f).count v) = rows.countP (fun r => f r == some v) := by
  intro rows
  induction rows with
  | nil => rfl
  | cons r t ih =>
    rw [List.filterMap_cons, List.countP_cons]
    cases hr : f r with
    | none =>
      have hb : ((none : Option String) == some v) = false := rfl
      rw [hb]
      simp only [Bool.false_eq_true, if_false]
      exact ih
    | some s =>
      show List.count v (s :: List.filterMap f t) = _
      have hb : ((some s : Option String) == some v) = (s == v) := rfl
      rw [List.count_cons, ih, hb]

theorem unknown_token_le (cells : List String) :
    cells.countP (fun s => s == "Unknown")
      ≤ ((cells.map (fun s => (splitTrim s).count "Unknown")).sum) := by
  induction cells with
  | nil => exact Nat.le_refl 0
  | cons s t ih =>
    rw [List.countP_cons, List.map_cons, List.sum_cons]
    by_cases hs : s = "Unknown"
    · subst hs
      have h1 : ((splitTrim "Unknown").count "Unknown") = 1 := by decide
      rw [h1, beq_self_eq_true]
      simp only [if_true]
      omega
    · have h2 : (s == "Unknown") = false := beq_eq_false_iff_ne.mpr hs
      rw [h2]
      simp only [Bool.false_eq_true, if_false]
      omega

theorem filterMap_filter_isSome (rows : List CleanRow) :
    (rows.filter (fun r => (r.listed_in).isSome)).filterMap (fun r => r.listed_in)
      = rows.filterMap (fun r => r.listed_in) := by
  induction rows with
  | nil => rfl
  | cons r t ih =>
    cases hr : r.listed_in with
    | none => simp [List.filter_cons, List.filterMap_cons, hr, ih]
    | some s => simp [List.filter_cons, List.filterMap_cons, hr, ih]

/-- C10: every surviving record whose `country` was originally null yields
one `"Unknown"` token in the country-frequency counts (so `"Unknown"` can
rank among the top countries), every surviving record whose `rating` was
originally null adds one to the `"Unknown"` rating category, while the
never-filled genre field makes `analyze_genres` drop null-genre records
entirely: they contribute no tokens. -/
theorem claim_c10 (raw : List RawRow) :
    (dedupRawByShowId [] raw).countP (fun r => (r.country).isNone)
      ≤ (allCountries (clean_data raw)).count "Unknown"
  ∧ (dedupRawByShowId [] raw).countP (fun r => (r.rating).isNone)
      ≤ ((clean_data raw).filterMap (fun r => r.rating)).count "Unknown"
  ∧ allGenres (clean_data raw)
      = allGenres ((clean_data raw).filter (fun r => (r.listed_in).isSome)) := by
  have hc2 : ∀ (g : CleanRow → Option String),
      (clean_data raw).countP (fun r => g (addYear r) == some "Unknown")
        = (dedupByShowId [] (fillRows none raw)).countP
            (fun r => g (addYear r) == some "Unknown") := by
    intro g
    unfold clean_data
    rw [List.countP_map]
    rfl
  refine ⟨?_, ?_, ?_⟩
  · have h1 := dedup_fill_unknown_count (fun r => r.country) (fun r => r.country)
      (fun _ _ => rfl) raw none []
    have h2 : (clean_data raw).countP (fun r => r.country == some "Unknown")
        = (dedupByShowId [] (fillRows none raw)).countP
            (fun r => r.country == some "Unknown") := by
      unfold clean_data
      rw [List.countP_map]
      rfl
    have h3 : (clean_data raw).countP (fun r => r.country == some "Unknown")
        ≤ (allCountries (clean_data raw)).count "Unknown" := by
      unfold allCountries
      rw [count_flatMap, ← count_filterMap_eq (fun r => r.country) "Unknown"]
      exact unknown_token_le ((clean_data raw).filterMap (fun r => r.country))
    rw [← h2] at h1
    exact Nat.le_trans h1 h3
  · have h1 := dedup_fill_unknown_count (fun r => r.rating) (fun r => r.rating)
      (fun _ _ => rfl) raw none []
    have h2 : (clean_data raw).countP (fun r => r.rating == some "Unknown")
        = (dedupByShowId [] (fillRows none raw)).countP
            (fun r => r.rating == some "Unknown") := by
      unfold clean_data
      rw [List.countP_map]
      rfl
    rw [← h2] at h1
    rw [count_filterMap_eq (fun r => r.rating) "Unknown"]
    exact h1
  · unfold allGenres
    rw [filterMap_filter_isSome]

end NetflixEDA
